import Mathlib

/-!
Shallow embedding of the LiveShell LocalMode Pro audio configuration codec
(src/sample/encoder.py and src/sample/decoder.py) together with proofs of the
behavioural properties claimed by the specification.

Bytes and bits are modelled as natural numbers, byte strings as `List Nat`,
decoded texts as lists of Unicode code points (`List Nat`).  The floating-point
classifier stage (normalize_blocks and the seeded k-means of kmeans2) is the
only part of the pipeline that is not embedded: it is abstracted as an explicit
labelling parameter where the surrounding control flow is verified.
-/

namespace Encoder

/-- CRC16 XMODEM from encoder.py: polynomial 0x1021, initial value 0x0000,
one left-shift-and-conditional-xor step per bit, eight steps per byte. -/
def crcStep (crc : Nat) : Nat :=
  if crc &&& 0x8000 ≠ 0 then ((crc <<< 1) ^^^ 0x1021) &&& 0xFFFF
  else (crc <<< 1) &&& 0xFFFF

/-- Fold the eight shift steps of one input byte into the running register. -/
def crcByte (crc b : Nat) : Nat :=
  (List.range 8).foldl (fun c _ => crcStep c) (crc ^^^ (b <<< 8))

/-- crc16_xmodem of encoder.py (fixed polynomial 0x1021, initial value 0). -/
def crc16_xmodem (data : List Nat) : Nat :=
  data.foldl crcByte 0x0000

/-- uart_bits of encoder.py: each payload byte becomes start bit 0, the eight
data bits most-significant-bit first, then stop bit 1. -/
def uartFrameOfByte (b : Nat) : List Nat :=
  0 :: ((List.range 8).map fun k => (b >>> (7 - k)) &&& 1) ++ [1]

/-- uart_bits of encoder.py applied to a whole payload. -/
def uart_bits (payload : List Nat) : List Nat :=
  payload.flatMap uartFrameOfByte

def PREAMBLE_ONES : Nat := 12
def POSTAMBLE_ONES : Nat := 12

/-- The payload built in encoder.py's main: text bytes followed by the CRC16,
most significant byte first. -/
def payloadWithCrc (text : List Nat) : List Nat :=
  let crc := crc16_xmodem text
  text ++ [(crc >>> 8) &&& 0xFF, crc &&& 0xFF]

/-- One repetition unit of the bit stream built in encoder.py's main:
preamble ones, the UART-framed payload, postamble ones. -/
def frameUnit (payload : List Nat) : List Nat :=
  List.replicate PREAMBLE_ONES 1 ++ uart_bits payload ++ List.replicate POSTAMBLE_ONES 1

end Encoder

namespace Decoder

/-- crc16_xmodem of decoder.py, with the polynomial and initial value as
explicit arguments (they are keyword parameters in the source). -/
def crcStep (poly crc : Nat) : Nat :=
  if crc &&& 0x8000 ≠ 0 then ((crc <<< 1) ^^^ poly) &&& 0xFFFF
  else (crc <<< 1) &&& 0xFFFF

def crcByte (poly crc b : Nat) : Nat :=
  (List.range 8).foldl (fun c _ => crcStep poly c) (crc ^^^ (b <<< 8))

def crc16_xmodem (data : List Nat) (poly : Nat) (init : Nat) : Nat :=
  (data.foldl (crcByte poly) init) &&& 0xFFFF

/-- crc16_ccitt_false of decoder.py: the same polynomial with initial value
0xFFFF. -/
def crc16_ccitt_false (data : List Nat) : Nat :=
  crc16_xmodem data 0x1021 0xFFFF

/-- Reassemble a data byte most-significant-bit first, as the loop
`val = (val << 1) | (b & 1)` in bits_to_bytes_uart. -/
def uartReadByte (bits : List Nat) (i : Nat) : Nat :=
  ((bits.drop (i + 1)).take 8).foldl (fun v b => (v <<< 1) ||| (b &&& 1)) 0

/-- The while loop of bits_to_bytes_uart; the fuel argument counts the bytes
still allowed by max_bytes. -/
def uartLoop (bits : List Nat) (n : Nat) : Nat → List Nat → Nat → List Nat × Nat
  | i, out, 0 => (out, i)
  | i, out, fuel + 1 =>
    if i + 10 ≤ n then
      if bits.getD i 0 ≠ 0 then (out, i)
      else if n ≤ i + 9 then (out, i)
      else if bits.getD (i + 9) 0 ≠ 1 then (out, i)
      else uartLoop bits n (i + 10) (out ++ [uartReadByte bits i]) fuel
    else (out, i)

/-- bits_to_bytes_uart of decoder.py. -/
def bits_to_bytes_uart (bits : List Nat) (start_pos : Nat) (max_bytes : Nat) :
    List Nat × Nat :=
  uartLoop bits bits.length start_pos [] max_bytes

/-- reverse_bits_in_byte from try_bit_order_and_crc. -/
def reverse_bits_in_byte (b : Nat) : Nat :=
  ((List.range 8).foldl (fun p _ => ((p.1 <<< 1) ||| (p.2 &&& 1), p.2 >>> 1)) (0, b)).1

/-- Check one byte-order candidate inside try_bit_order_and_crc: split off the
two trailer bytes, read them big-endian, and compare against the two CRC
variants in source order. -/
def checkCand (cand : List Nat) : Option (List Nat) :=
  if cand.length < 3 then none
  else
    let body := cand.take (cand.length - 2)
    let crcb := cand.drop (cand.length - 2)
    let want := (crcb.getD 0 0 <<< 8) ||| crcb.getD 1 0
    if crc16_xmodem body 0x1021 0x0000 = want then some body
    else if crc16_ccitt_false body = want then some body
    else none

/-- try_bit_order_and_crc of decoder.py: try the payload as parsed, then the
per-byte bit-reversed payload. -/
def try_bit_order_and_crc (payload : List Nat) : Option (List Nat) :=
  if payload.length < 3 then none
  else
    match checkCand payload with
    | some body => some body
    | none => checkCand (payload.map reverse_bits_in_byte)

/-- The scanning loop of find_frames: count consecutive 1 bits and record a
position whose bit is not 1 when it ends a run of length at least 8. -/
def ffGo : List Nat → Nat → Nat → List Nat
  | [], _, _ => []
  | b :: rest, i, run =>
    if b = 1 then ffGo rest (i + 1) (run + 1)
    else (if 8 ≤ run then [i] else []) ++ ffGo rest (i + 1) 0

/-- The de-duplication loop of find_frames: keep a candidate only when it is
more than 50 positions after the last kept one. -/
def dedupGo : List Nat → Int → List Nat
  | [], _ => []
  | s :: rest, last =>
    if (50 : Int) < (s : Int) - last then s :: dedupGo rest (s : Int)
    else dedupGo rest last

/-- find_frames of decoder.py. -/
def find_frames (bits : List Nat) : List Nat :=
  dedupGo (ffGo bits 0 0) (-(10 ^ 9 : Int))

/-- A byte in 0x80..0xBF, the generic UTF-8 continuation range. -/
def isCont (c : Nat) : Bool :=
  0x80 ≤ c && c ≤ 0xBF

/-- Lower bound for the first continuation byte of a 3- or 4-byte sequence
(0xE0 and 0xF0 exclude overlong encodings). -/
def cont1Lo (b : Nat) : Nat :=
  if b = 0xE0 then 0xA0 else if b = 0xF0 then 0x90 else 0x80

/-- Upper bound for the first continuation byte of a 3- or 4-byte sequence
(0xED excludes surrogates, 0xF4 values above U+10FFFF). -/
def cont1Hi (b : Nat) : Nat :=
  if b = 0xED then 0x9F else if b = 0xF4 then 0x8F else 0xBF

/-- One fuelled pass of the replacing UTF-8 decoder; the fuel only serves to
make the recursion structural and is always called with at least the length
of the byte list, so every branch has fuel available. -/
def utf8Go : Nat → List Nat → List Nat
  | _, [] => []
  | 0, _ :: _ => []
  | fuel + 1, b :: rest =>
    if b ≤ 0x7F then b :: utf8Go fuel rest
    else if 0xC2 ≤ b ∧ b ≤ 0xDF then
      match rest with
      | c1 :: rest1 =>
        if isCont c1 then ((b - 0xC0) * 64 + (c1 - 0x80)) :: utf8Go fuel rest1
        else 0xFFFD :: utf8Go fuel (c1 :: rest1)
      | [] => [0xFFFD]
    else if 0xE0 ≤ b ∧ b ≤ 0xEF then
      match rest with
      | c1 :: rest1 =>
        if cont1Lo b ≤ c1 ∧ c1 ≤ cont1Hi b then
          match rest1 with
          | c2 :: rest2 =>
            if isCont c2 then
              ((b - 0xE0) * 4096 + (c1 - 0x80) * 64 + (c2 - 0x80)) :: utf8Go fuel rest2
            else 0xFFFD :: utf8Go fuel (c2 :: rest2)
          | [] => [0xFFFD]
        else 0xFFFD :: utf8Go fuel (c1 :: rest1)
      | [] => [0xFFFD]
    else if 0xF0 ≤ b ∧ b ≤ 0xF4 then
      match rest with
      | c1 :: rest1 =>
        if cont1Lo b ≤ c1 ∧ c1 ≤ cont1Hi b then
          match rest1 with
          | c2 :: rest2 =>
            if isCont c2 then
              match rest2 with
              | c3 :: rest3 =>
                if isCont c3 then
                  ((b - 0xF0) * 262144 + (c1 - 0x80) * 4096 + (c2 - 0x80) * 64 + (c3 - 0x80)) ::
                    utf8Go fuel rest3
                else 0xFFFD :: utf8Go fuel (c3 :: rest3)
              | [] => [0xFFFD]
            else 0xFFFD :: utf8Go fuel (c2 :: rest2)
          | [] => [0xFFFD]
        else 0xFFFD :: utf8Go fuel (c1 :: rest1)
      | [] => [0xFFFD]
    else 0xFFFD :: utf8Go fuel rest

/-- UTF-8 decoding with U+FFFD substitution of maximal invalid subparts, the
behaviour of Python's bytes.decode with errors="replace".  The strict decode
used first by decoder.py agrees with this function whenever it succeeds, so
the try/except pair collapses to this single total function. -/
def utf8DecodeReplace (l : List Nat) : List Nat :=
  utf8Go l.length l

/-- Python's str.replace of carriage-return line-feed pairs by line feeds,
scanning left to right without overlap. -/
def normalizeCrlf : List Nat → List Nat
  | 13 :: 10 :: rest => 10 :: normalizeCrlf rest
  | c :: rest => c :: normalizeCrlf rest
  | [] => []

/-- Python's str.strip of NUL characters: drop them from both ends. -/
def stripNulls (l : List Nat) : List Nat :=
  ((l.dropWhile (· = 0)).reverse.dropWhile (· = 0)).reverse

/-- The text post-processing in decode_with_polarity: decode the body as
UTF-8 (with lossy fallback), normalize line endings, strip NUL padding. -/
def textOfBody (body : List Nat) : List Nat :=
  stripNulls (normalizeCrlf (utf8DecodeReplace body))

/-- The polarity application at the top of decode_with_polarity: either the
raw labels or every label flipped. -/
def applyPolarity (raw_bits : List Nat) (flip : Bool) : List Nat :=
  raw_bits.map fun b => if flip then 1 - b else b

/-- The candidate loop of decode_with_polarity: parse at each start, skip
payloads shorter than 10 bytes, attempt checksum resolution, keep the longest
decoded text seen so far. -/
def dwpGo (bits : List Nat) : List Nat → Option (List Nat) → Int → Option (List Nat)
  | [], best, _ => best
  | s :: rest, best, bestLen =>
    let pr := bits_to_bytes_uart bits s 10000
    if pr.1.length < 10 then dwpGo bits rest best bestLen
    else
      match try_bit_order_and_crc pr.1 with
      | none => dwpGo bits rest best bestLen
      | some body =>
        let text := textOfBody body
        if bestLen < (text.length : Int) then dwpGo bits rest (some text) (text.length : Int)
        else dwpGo bits rest best bestLen

/-- decode_with_polarity of decoder.py: apply the polarity, locate frame
starts, and run the candidate loop over the first 50 candidates. -/
def decode_with_polarity (raw_bits : List Nat) (flip : Bool) : Option (List Nat) :=
  let bits := applyPolarity raw_bits flip
  dwpGo bits ((find_frames bits).take 50) none (-1)

inductive DecodeError
  | insufficientData
  | noValidFrame
  deriving DecidableEq

/-- The tail of decode_config_string: try both polarities and keep the longer
decoded text, preferring the non-flipped polarity on ties; fail only when both
polarities produced nothing. -/
def decodeFromBits (raw_bits : List Nat) : Except DecodeError (List Nat) :=
  let t0 := decode_with_polarity raw_bits false
  let t1 := decode_with_polarity raw_bits true
  match t0, t1 with
  | none, none => .error .noValidFrame
  | none, some t => .ok t
  | some t, none => .ok t
  | some a, some b => .ok (if b.length ≤ a.length then a else b)

/-- The non-overlapping 32-sample blocks cut from the head of the buffer. -/
def toBlocks (pcm : List Int) : List (List Int) :=
  (List.range (pcm.length / 32)).map fun k => (pcm.drop (32 * k)).take 32

/-- decode_config_string of decoder.py on an in-memory mono sample buffer.
The classifier stage (normalize_blocks followed by the seeded k-means of
kmeans2, computed in float32) is abstracted as the labeller argument, which
stands for the function from the 32-sample blocks to the per-block 0/1
labels; everything around it is embedded from the source. -/
def decode_config_string (labeller : List (List Int) → List Nat) (pcm : List Int) :
    Except DecodeError (List Nat) :=
  let n_blocks := pcm.length / 32
  if n_blocks < 200 then .error .insufficientData
  else decodeFromBits (labeller (toBlocks pcm))

/-- Run length of consecutive 1 bits immediately before position i, the value
of the run counter of find_frames when it reaches i. -/
def onesRun (bits : List Nat) : Nat → Nat
  | 0 => 0
  | i + 1 => if bits.getD i 0 = 1 then onesRun bits i + 1 else 0

/-- A frame-start candidate in the sense of the specification: a position
inside the sequence holding a non-1 bit that ends a run of at least eight
consecutive 1 bits. -/
def isStartCandB (bits : List Nat) (i : Nat) : Bool :=
  (bits.getD i 0 != 1) && decide (8 ≤ onesRun bits i)

/-- A two-byte big-endian CRC-16 trailer over the data with polynomial 0x1021
and a chosen initial register value, written exactly as the encoder writes its
trailer (most significant byte first). -/
def crcTrailer (data : List Nat) (init : Nat) : List Nat :=
  [(crc16_xmodem data 0x1021 init >>> 8) &&& 0xFF, crc16_xmodem data 0x1021 init &&& 0xFF]

/-- No candidate of the given polarity validates: every frame start among the
first 50 either parses to fewer than 10 bytes or fails checksum resolution. -/
def noValidatedCandidate (raw_bits : List Nat) (flip : Bool) : Prop :=
  ∀ s ∈ (find_frames (applyPolarity raw_bits flip)).take 50,
    (bits_to_bytes_uart (applyPolarity raw_bits flip) s 10000).1.length < 10 ∨
      try_bit_order_and_crc (bits_to_bytes_uart (applyPolarity raw_bits flip) s 10000).1 = none

end Decoder

/-- Test fixture: the ASCII bytes of the text made of seven letters A and a
newline, eight bytes in all. -/
def textA : List Nat := [65, 65, 65, 65, 65, 65, 65, 10]

/-- Test fixture: the ASCII bytes of the text made of seven letters B and a
newline. -/
def textB : List Nat := [66, 66, 66, 66, 66, 66, 66, 10]

/-- One encoded repetition unit carrying textA. -/
def frameA : List Nat := Encoder.frameUnit (Encoder.payloadWithCrc textA)

/-- One encoded repetition unit carrying textB. -/
def frameB : List Nat := Encoder.frameUnit (Encoder.payloadWithCrc textB)

/-- A classified bit sequence holding frame A in the detected polarity
followed by frame B in the flipped polarity; both polarity hypotheses of the
orchestrator then validate texts of equal length. -/
def mixedBits : List Nat := frameA ++ frameB.map (fun b => 1 - b)

/-- A bit sequence with frame-start candidates at positions 8 and 58, exactly
50 bit-positions apart. -/
def dedupBoundaryBits : List Nat :=
  List.replicate 8 1 ++ [0] ++ List.replicate 49 1 ++ [0]

/-- A bit sequence with a single run of eight 1 bits ended by a 0. -/
def runEndBits : List Nat := [1, 1, 1, 1, 1, 1, 1, 1, 0]


namespace Encoder

theorem uart_bits_nil : uart_bits [] = [] := rfl

theorem uart_bits_cons (b : Nat) (p : List Nat) :
    uart_bits (b :: p) = uartFrameOfByte b ++ uart_bits p := by
  simp [uart_bits]

theorem uartFrameOfByte_length (b : Nat) : (uartFrameOfByte b).length = 10 := by
  simp [uartFrameOfByte]

theorem uart_bits_length (p : List Nat) : (uart_bits p).length = 10 * p.length := by
  induction p with
  | nil => simp [uart_bits]
  | cons b p ih =>
    rw [uart_bits_cons]
    simp [uartFrameOfByte_length, ih]
    ring

end Encoder

namespace Decoder

theorem getD_drop (l : List Nat) (i k d : Nat) : (l.drop i).getD k d = l.getD (i + k) d := by
  simp [List.getD_eq_getElem?_getD, List.getElem?_drop]

theorem uartLoop_acc (bits : List Nat) (n : Nat) :
    ∀ fuel i out, uartLoop bits n i out fuel =
      (out ++ (uartLoop bits n i [] fuel).1, (uartLoop bits n i [] fuel).2) := by
  intro fuel
  induction fuel with
  | zero => intro i out; simp [uartLoop]
  | succ f ih =>
    intro i out
    by_cases h1 : i + 10 ≤ n
    · by_cases h2 : bits[i]?.getD 0 = 0
      · by_cases h3 : n ≤ i + 9
        · simp [uartLoop, h1, h2, h3]
        · by_cases h4 : bits[i + 9]?.getD 0 = 1
          · simp only [uartLoop, List.getD_eq_getElem?_getD, ne_eq, h2, h4, if_pos h1,
              not_true_eq_false, if_false, if_neg h3, ite_true, ite_false, List.nil_append]
            rw [ih (i + 10) (out ++ [uartReadByte bits i]), ih (i + 10) [uartReadByte bits i]]
            simp
          · simp [uartLoop, h1, h2, h3, h4]
      · simp [uartLoop, h1, h2]
    · simp [uartLoop, h1]

set_option maxRecDepth 10000 in
/-- The eight MSB-first data bits of a byte below 256 reassemble to that byte. -/
theorem msbBits_fold : ∀ b < 256,
    ((List.range 8).map fun k => (b >>> (7 - k)) &&& 1).foldl
      (fun v x => (v <<< 1) ||| (x &&& 1)) 0 = b := by
  decide

theorem uartLoop_uart_bits : ∀ (p : List Nat) (fuel i : Nat) (out bits : List Nat),
    (∀ x ∈ p, x < 256) → p.length ≤ fuel →
    bits.drop i = Encoder.uart_bits p → bits.length = i + 10 * p.length →
    uartLoop bits bits.length i out fuel = (out ++ p, i + 10 * p.length) := by
  intro p
  induction p with
  | nil =>
    intro fuel i out bits _ _ _ hlen
    simp only [List.length_nil, Nat.mul_zero, Nat.add_zero] at hlen
    cases fuel with
    | zero => simp [uartLoop, hlen]
    | succ f =>
      simp only [uartLoop]
      rw [if_neg (by omega)]
      simp
  | cons b p ih =>
    intro fuel i out bits hbytes hfuel hdrop hlen
    cases fuel with
    | zero => simp at hfuel
    | succ f =>
      rw [Encoder.uart_bits_cons] at hdrop
      have hfb : Encoder.uartFrameOfByte b =
          0 :: (((List.range 8).map fun k => (b >>> (7 - k)) &&& 1) ++ [1]) := by
        simp [Encoder.uartFrameOfByte]
      have hlen' : bits.length = i + 10 * (p.length + 1) := by
        simpa using hlen
      have hstart : bits.getD i 0 = 0 := by
        have h0 := getD_drop bits i 0 0
        rw [Nat.add_zero] at h0
        rw [← h0, hdrop, hfb]
        rfl
      have hdata : bits.drop (i + 1) =
          (((List.range 8).map fun k => (b >>> (7 - k)) &&& 1) ++ [1]) ++ Encoder.uart_bits p := by
        have hdd : bits.drop (i + 1) = (bits.drop i).drop 1 := by
          rw [List.drop_drop]
        rw [hdd, hdrop, hfb]
        simp
      have hstop : bits.getD (i + 9) 0 = 1 := by
        have h9 : bits.getD (i + 9) 0 = (bits.drop (i + 1)).getD 8 0 := by
          rw [getD_drop]
        rw [h9, hdata, List.getD_eq_getElem?_getD, List.getElem?_append_left (by simp),
          List.getElem?_append_right (by simp)]
        simp
      have hbyte : uartReadByte bits i = b := by
        unfold uartReadByte
        rw [hdata, List.append_assoc, List.take_left' (by simp)]
        exact msbBits_fold b (hbytes b (List.mem_cons_self b p))
      simp only [uartLoop]
      rw [if_pos (show i + 10 ≤ bits.length by omega)]
      rw [if_neg (show ¬ bits.getD i 0 ≠ 0 by simpa using hstart)]
      rw [if_neg (show ¬ bits.length ≤ i + 9 by omega)]
      rw [if_neg (show ¬ bits.getD (i + 9) 0 ≠ 1 by simpa using hstop)]
      rw [hbyte]
      have hdrop10 : bits.drop (i + 10) = Encoder.uart_bits p := by
        have hdd : bits.drop (i + 10) = (bits.drop i).drop 10 := by
          rw [List.drop_drop]
        rw [hdd, hdrop, List.drop_left' (Encoder.uartFrameOfByte_length b)]
      have hrec := ih f (i + 10) (out ++ [b]) bits
        (fun x hx => hbytes x (List.mem_cons_of_mem b hx)) (by simpa using hfuel)
        hdrop10 (by omega)
      rw [hrec, Prod.mk.injEq]
      constructor
      · simp
      · simp only [List.length_cons]
        omega

theorem uartLoop_base_spec : ∀ (fuel : Nat) (bits : List Nat) (n i : Nat),
    (uartLoop bits n i [] fuel).2 = i + 10 * (uartLoop bits n i [] fuel).1.length ∧
      (uartLoop bits n i [] fuel).1.length ≤ fuel := by
  intro fuel
  induction fuel with
  | zero => intro bits n i; simp [uartLoop]
  | succ f ih =>
    intro bits n i
    by_cases h1 : i + 10 ≤ n
    · by_cases h2 : bits[i]?.getD 0 = 0
      · by_cases h3 : n ≤ i + 9
        · simp [uartLoop, h1, h2, h3]
        · by_cases h4 : bits[i + 9]?.getD 0 = 1
          · simp only [uartLoop, List.getD_eq_getElem?_getD, ne_eq, h2, h4, if_pos h1,
              not_true_eq_false, if_false, if_neg h3, ite_true, ite_false, List.nil_append]
            rw [uartLoop_acc bits n f (i + 10) [uartReadByte bits i]]
            have hb := ih bits n (i + 10)
            constructor
            · simp only [List.length_append, List.length_cons, List.length_nil]
              omega
            · simp only [List.length_append, List.length_cons, List.length_nil]
              omega
          · simp [uartLoop, h1, h2, h3, h4]
      · simp [uartLoop, h1, h2]
    · simp [uartLoop, h1]

/-- C10: the UART parser's result always satisfies the frame-granularity
invariant: the end position is the start index plus ten bit-positions per
emitted byte, and the number of emitted bytes never exceeds the byte cap. -/
theorem uart_parse_invariant (bits : List Nat) (i cap : Nat) :
    (bits_to_bytes_uart bits i cap).2 = i + 10 * (bits_to_bytes_uart bits i cap).1.length ∧
      (bits_to_bytes_uart bits i cap).1.length ≤ cap := by
  unfold bits_to_bytes_uart
  exact uartLoop_base_spec cap bits bits.length i

/-- C6: unfolding law of the UART parser.  At every frame boundary the parser
halts at once with the bytes accumulated so far and the current position when
fewer than 10 bits remain, the byte cap is hit, the start bit is not 0, or the
stop bit is not 1; otherwise it consumes exactly one whole 10-bit frame and
continues.  In particular no partial byte is ever emitted and parsing never
resumes after a violation. -/
theorem uart_parse_halt_recurrence (bits : List Nat) (i cap : Nat) :
    bits_to_bytes_uart bits i cap =
      if cap = 0 ∨ bits.length < i + 10 then ([], i)
      else if bits.getD i 0 ≠ 0 ∨ bits.getD (i + 9) 0 ≠ 1 then ([], i)
      else ((uartReadByte bits i) :: (bits_to_bytes_uart bits (i + 10) (cap - 1)).1,
        (bits_to_bytes_uart bits (i + 10) (cap - 1)).2) := by
  unfold bits_to_bytes_uart
  cases cap with
  | zero => simp [uartLoop]
  | succ f =>
    by_cases h1 : i + 10 ≤ bits.length
    · rw [if_neg (by omega)]
      by_cases h2 : bits[i]?.getD 0 = 0
      · by_cases h4 : bits[i + 9]?.getD 0 = 1
        · rw [if_neg (by simp [List.getD_eq_getElem?_getD, h2, h4])]
          simp only [uartLoop, List.getD_eq_getElem?_getD, ne_eq, h2, h4, if_pos h1,
            not_true_eq_false, if_false, if_neg (show ¬ bits.length ≤ i + 9 by omega),
            ite_true, ite_false, List.nil_append, Nat.add_sub_cancel]
          rw [uartLoop_acc bits bits.length f (i + 10) [uartReadByte bits i]]
          simp
        · rw [if_pos (by simp [List.getD_eq_getElem?_getD, h4])]
          simp [uartLoop, h1, h2, h4, if_neg (show ¬ bits.length ≤ i + 9 by omega)]
      · rw [if_pos (by simp [List.getD_eq_getElem?_getD, h2])]
        simp [uartLoop, h1, h2]
    · rw [if_pos (by omega)]
      simp [uartLoop, h1]

/-- C3: parsing the encoder's UART framing of a byte sequence from index 0
returns exactly that sequence and ends at ten times its length, provided the
sequence fits under the byte cap. -/
theorem uart_roundtrip (p : List Nat) (cap : Nat) (hbytes : ∀ x ∈ p, x < 256)
    (hcap : p.length ≤ cap) :
    bits_to_bytes_uart (Encoder.uart_bits p) 0 cap = (p, 10 * p.length) := by
  unfold bits_to_bytes_uart
  have h := uartLoop_uart_bits p cap 0 [] (Encoder.uart_bits p) hbytes hcap
    (by simp) (by simp [Encoder.uart_bits_length])
  simpa using h

/-- Witness for C3 at the concrete byte sequence [65, 10] and the parser's
default byte cap. -/
theorem uart_roundtrip_witness :
    bits_to_bytes_uart (Encoder.uart_bits [65, 10]) 0 20000 = ([65, 10], 20) := by
  have h := uart_roundtrip [65, 10] 20000 (by decide) (by decide)
  simpa using h

theorem crc16_lt (data : List Nat) (poly init : Nat) :
    crc16_xmodem data poly init < 65536 := by
  unfold crc16_xmodem
  have h := Nat.and_le_right (n := data.foldl (crcByte poly) init) (m := 0xFFFF)
  omega

theorem beSplit_recon (c : Nat) (hc : c < 65536) :
    (((c >>> 8) &&& 0xFF) <<< 8) ||| (c &&& 0xFF) = c := by
  have h1 : c &&& 0xFF = c % 256 := by
    have h := Nat.and_pow_two_sub_one_eq_mod c 8
    norm_num at h
    exact h
  have h2 : c >>> 8 = c / 256 := by
    rw [Nat.shiftRight_eq_div_pow]
  have h3 : c / 256 < 256 := by omega
  have h4 : c / 256 &&& 0xFF = c / 256 := by
    have h := Nat.and_pow_two_sub_one_of_lt_two_pow (x := c / 256) (n := 8) (by norm_num; omega)
    norm_num at h
    exact h
  have h5 : (c / 256) <<< 8 = 256 * (c / 256) := by
    rw [Nat.shiftLeft_eq]
    norm_num
    ring
  have hmod : c % 256 < 2 ^ 8 := by
    norm_num
    omega
  have h6 := Nat.mul_add_lt_is_or hmod (c / 256)
  norm_num at h6
  rw [h2, h4, h5, h1, ← h6]
  omega

theorem checkCand_trailer (b : List Nat) (hb : b ≠ []) (init : Nat)
    (hinit : init = 0x0000 ∨ init = 0xFFFF) :
    checkCand (b ++ crcTrailer b init) = some b := by
  have hblen : 1 ≤ b.length := List.length_pos.mpr hb
  have hlen : (b ++ crcTrailer b init).length = b.length + 2 := by
    simp [crcTrailer]
  have hl2 : (b ++ crcTrailer b init).length - 2 = b.length := by
    omega
  have hbody : (b ++ crcTrailer b init).take ((b ++ crcTrailer b init).length - 2) = b := by
    rw [hl2]
    exact List.take_left b _
  have hcrcb : (b ++ crcTrailer b init).drop ((b ++ crcTrailer b init).length - 2) =
      [(crc16_xmodem b 0x1021 init >>> 8) &&& 0xFF, crc16_xmodem b 0x1021 init &&& 0xFF] := by
    rw [hl2, List.drop_left]
    rfl
  simp only [checkCand]
  rw [if_neg (by omega), hbody, hcrcb]
  simp only [List.getD_cons_zero, List.getD_cons_succ]
  have hw := beSplit_recon (crc16_xmodem b 0x1021 init) (crc16_lt b 0x1021 init)
  simp only [hw]
  rcases hinit with h | h
  · subst h
    simp
  · subst h
    by_cases hfirst : crc16_xmodem b 0x1021 0x0000 = crc16_xmodem b 0x1021 0xFFFF
    · simp [hfirst]
    · simp [hfirst, crc16_ccitt_false]

theorem tboc_of_checkCand (payload b : List Nat) (h3 : ¬ payload.length < 3)
    (hc : checkCand payload = some b) : try_bit_order_and_crc payload = some b := by
  unfold try_bit_order_and_crc
  rw [if_neg h3, hc]

/-- C2: appending the big-endian CRC-16 trailer of a non-empty byte sequence,
computed with initial value 0x0000 or with the alternate initial value 0xFFFF,
always yields a payload that the resolver validates, returning exactly the
byte sequence with the trailer stripped. -/
theorem crc_trailer_roundtrip_validates (b : List Nat) (hb : b ≠ []) :
    try_bit_order_and_crc (b ++ crcTrailer b 0x0000) = some b ∧
      try_bit_order_and_crc (b ++ crcTrailer b 0xFFFF) = some b := by
  have hblen : 1 ≤ b.length := List.length_pos.mpr hb
  constructor
  · exact tboc_of_checkCand _ b (by simp [crcTrailer]; omega)
      (checkCand_trailer b hb 0x0000 (Or.inl rfl))
  · exact tboc_of_checkCand _ b (by simp [crcTrailer]; omega)
      (checkCand_trailer b hb 0xFFFF (Or.inr rfl))

/-- Witness for C2 at the concrete byte sequence [104, 105]. -/
theorem crc_trailer_roundtrip_validates_witness :
    try_bit_order_and_crc ([104, 105] ++ crcTrailer [104, 105] 0x0000) = some [104, 105] ∧
      try_bit_order_and_crc ([104, 105] ++ crcTrailer [104, 105] 0xFFFF) = some [104, 105] :=
  crc_trailer_roundtrip_validates [104, 105] (by decide)

theorem ffGo_spec_aux : ∀ (m : Nat) (bits : List Nat) (k : Nat), bits.length = k + m →
    ffGo (bits.drop k) k (onesRun bits k) =
      (List.range' k m).filter (fun i => isStartCandB bits i) := by
  intro m
  induction m with
  | zero =>
    intro bits k h
    rw [List.drop_eq_nil_of_le (by omega)]
    simp [ffGo]
  | succ m ih =>
    intro bits k h
    have hk : k < bits.length := by omega
    rw [List.drop_eq_getElem_cons hk]
    have hbk : bits[k]?.getD 0 = bits[k] := by
      rw [List.getElem?_eq_getElem hk]
      rfl
    rw [List.range'_succ, List.filter_cons]
    simp only [ffGo]
    by_cases hb : bits[k] = 1
    · rw [if_pos hb]
      have hrun : onesRun bits (k + 1) = onesRun bits k + 1 := by
        simp [onesRun, hbk, hb]
      have ihh := ih bits (k + 1) (by omega)
      rw [hrun] at ihh
      rw [ihh]
      have hpk : isStartCandB bits k = false := by
        simp [isStartCandB, hbk, hb]
      simp [hpk]
    · rw [if_neg hb]
      have hrun : onesRun bits (k + 1) = 0 := by
        simp [onesRun, hbk, hb]
      have ihh := ih bits (k + 1) (by omega)
      rw [hrun] at ihh
      rw [ihh]
      by_cases h8 : 8 ≤ onesRun bits k
      · simp [isStartCandB, hbk, hb, h8]
      · simp [isStartCandB, hbk, hb, h8]

theorem ffGo_eq_filter (bits : List Nat) :
    ffGo bits 0 0 = (List.range' 0 bits.length).filter (fun i => isStartCandB bits i) := by
  have h := ffGo_spec_aux bits.length bits 0 (by omega)
  simpa [onesRun] using h

theorem dedupGo_sublist : ∀ (l : List Nat) (last : Int), (dedupGo l last).Sublist l := by
  intro l
  induction l with
  | nil => intro last; simp [dedupGo]
  | cons s rest ih =>
    intro last
    by_cases h : (50 : Int) < (s : Int) - last
    · simp only [dedupGo, if_pos h]
      exact (ih (s : Int)).cons₂ s
    · simp only [dedupGo, if_neg h]
      exact (ih last).cons s

theorem dedupGo_gt : ∀ (l : List Nat) (last : Int) (x : Nat),
    x ∈ dedupGo l last → last + 50 < (x : Int) := by
  intro l
  induction l with
  | nil => intro last x hx; simp [dedupGo] at hx
  | cons s rest ih =>
    intro last x hx
    by_cases h : (50 : Int) < (s : Int) - last
    · simp only [dedupGo, if_pos h, List.mem_cons] at hx
      rcases hx with rfl | hx
      · omega
      · have := ih (s : Int) x hx
        omega
    · simp only [dedupGo, if_neg h] at hx
      exact ih last x hx

theorem dedupGo_chain : ∀ (l : List Nat) (last : Int),
    List.Chain' (fun a b : Nat => a + 50 < b) (dedupGo l last) := by
  intro l
  induction l with
  | nil => intro last; simp [dedupGo]
  | cons s rest ih =>
    intro last
    by_cases h : (50 : Int) < (s : Int) - last
    · simp only [dedupGo, if_pos h]
      rw [List.chain'_cons']
      refine ⟨?_, ih (s : Int)⟩
      intro y hy
      have hmem := List.mem_of_mem_head? hy
      have := dedupGo_gt rest (s : Int) y hmem
      omega
    · simp only [dedupGo, if_neg h]
      exact ih last

theorem dedupGo_cover : ∀ (l : List Nat) (last : Int), List.Pairwise (· < ·) l →
    ∀ s ∈ l, (∃ r ∈ dedupGo l last, r ≤ s ∧ s ≤ r + 50) ∨ (s : Int) ≤ last + 50 := by
  intro l
  induction l with
  | nil => intro last _ s hs; simp at hs
  | cons a rest ih =>
    intro last hpw s hs
    have ha : ∀ x ∈ rest, a < x := (List.pairwise_cons.mp hpw).1
    have hrest : List.Pairwise (· < ·) rest := (List.pairwise_cons.mp hpw).2
    rcases List.mem_cons.mp hs with rfl | hs
    · by_cases h : (50 : Int) < (s : Int) - last
      · left
        refine ⟨s, ?_, le_refl s, by omega⟩
        simp only [dedupGo, if_pos h]
        exact List.mem_cons_self s _
      · right
        omega
    · by_cases h : (50 : Int) < (a : Int) - last
      · left
        rcases ih (a : Int) hrest s hs with ⟨r, hr, hrs, hsr⟩ | hle
        · refine ⟨r, ?_, hrs, hsr⟩
          simp only [dedupGo, if_pos h]
          exact List.mem_cons_of_mem a hr
        · refine ⟨a, ?_, le_of_lt (ha s hs), by omega⟩
          simp only [dedupGo, if_pos h]
          exact List.mem_cons_self a _
      · rcases ih last hrest s hs with ⟨r, hr, hrs, hsr⟩ | hle
        · left
          refine ⟨r, ?_, hrs, hsr⟩
          simp only [dedupGo, if_neg h]
          exact hr
        · right
          exact hle

/-- C7 (amended): the scanning pass records exactly the in-range positions of
0 bits that end a run of at least eight consecutive 1 bits, in position
order; the de-duplication pass keeps an order-preserving subsequence of those
candidates in which consecutive retained candidates are strictly more than 50
positions apart, and every recorded candidate lies at most 50 positions after
some retained candidate.  (Two candidates exactly 50 positions apart are thus
collapsed, not both kept.) -/
theorem find_frames_characterization (bits : List Nat) (h01 : ∀ b ∈ bits, b ≤ 1) :
    (∀ i, i ∈ ffGo bits 0 0 ↔
      i < bits.length ∧ bits.getD i 0 = 0 ∧ 8 ≤ onesRun bits i) ∧
    List.Pairwise (· < ·) (ffGo bits 0 0) ∧
    (find_frames bits).Sublist (ffGo bits 0 0) ∧
    List.Chain' (fun a b : Nat => a + 50 < b) (find_frames bits) ∧
    ∀ s ∈ ffGo bits 0 0, ∃ r ∈ find_frames bits, r ≤ s ∧ s ≤ r + 50 := by
  have hpw : List.Pairwise (· < ·) (ffGo bits 0 0) := by
    rw [ffGo_eq_filter]
    exact List.Pairwise.sublist (List.filter_sublist _) (List.pairwise_lt_range' 0 bits.length)
  refine ⟨?_, hpw, dedupGo_sublist _ _, dedupGo_chain _ _, ?_⟩
  · intro i
    rw [ffGo_eq_filter, List.mem_filter, List.mem_range'_1]
    constructor
    · rintro ⟨⟨_, hlt⟩, hp⟩
      simp only [isStartCandB, Bool.and_eq_true, bne_iff_ne, decide_eq_true_eq] at hp
      have hilen : i < bits.length := by omega
      have hmem : bits.getD i 0 ∈ bits := by
        rw [List.getD_eq_getElem?_getD, List.getElem?_eq_getElem hilen]
        exact List.getElem_mem hilen
      have hb := h01 _ hmem
      exact ⟨hilen, by omega, hp.2⟩
    · rintro ⟨hlt, h0, h8⟩
      refine ⟨⟨by omega, by omega⟩, ?_⟩
      rw [List.getD_eq_getElem?_getD] at h0
      simp [isStartCandB, h0, h8]
  · intro s hs
    rcases dedupGo_cover (ffGo bits 0 0) (-(10 ^ 9 : Int)) hpw s hs with h | h
    · exact h
    · exfalso
      omega

/-- C7 counterexample: in dedupBoundaryBits, positions 8 and 58 are both
frame-start candidates and lie exactly 50 bit-positions apart, yet find_frames
keeps only position 8 — candidates exactly 50 apart are not both kept. -/
theorem find_frames_dedup_boundary_counterexample :
    ffGo dedupBoundaryBits 0 0 = [8, 58] ∧
    isStartCandB dedupBoundaryBits 8 = true ∧
    isStartCandB dedupBoundaryBits 58 = true ∧
    58 - 8 = 50 ∧
    find_frames dedupBoundaryBits = [8] := by
  decide

/-- Witness for the amended C7 at a concrete bit sequence. -/
theorem find_frames_characterization_witness :
    8 ∈ ffGo runEndBits 0 0 ∧
    List.Chain' (fun a b : Nat => a + 50 < b) (find_frames runEndBits) := by
  have h := find_frames_characterization runEndBits (by decide)
  exact ⟨(h.1 8).mpr (by decide), h.2.2.2.1⟩

theorem dwpGo_isSome_of_best_some : ∀ (l bits t : List Nat) (len : Int),
    (dwpGo bits l (some t) len).isSome := by
  intro l
  induction l with
  | nil => intro bits t len; simp [dwpGo]
  | cons s rest ih =>
    intro bits t len
    simp only [dwpGo]
    by_cases h10 : (bits_to_bytes_uart bits s 10000).1.length < 10
    · rw [if_pos h10]
      exact ih bits t len
    · rw [if_neg h10]
      cases htry : try_bit_order_and_crc (bits_to_bytes_uart bits s 10000).1 with
      | none => exact ih bits t len
      | some body =>
        dsimp only
        by_cases hlen : len < ((textOfBody body).length : Int)
        · rw [if_pos hlen]
          exact ih bits _ _
        · rw [if_neg hlen]
          exact ih bits t len

theorem dwpGo_none_iff (bits : List Nat) (len : Int) (hlen : len < 0) :
    ∀ l : List Nat, (dwpGo bits l none len = none ↔
      ∀ s ∈ l, (bits_to_bytes_uart bits s 10000).1.length < 10 ∨
        try_bit_order_and_crc (bits_to_bytes_uart bits s 10000).1 = none) := by
  intro l
  induction l with
  | nil => simp [dwpGo]
  | cons s rest ih =>
    simp only [dwpGo]
    by_cases h10 : (bits_to_bytes_uart bits s 10000).1.length < 10
    · rw [if_pos h10, ih]
      constructor
      · intro h x hx
        rcases List.mem_cons.mp hx with rfl | hx
        · exact Or.inl h10
        · exact h x hx
      · intro h x hx
        exact h x (List.mem_cons_of_mem s hx)
    · rw [if_neg h10]
      cases htry : try_bit_order_and_crc (bits_to_bytes_uart bits s 10000).1 with
      | none =>
        rw [ih]
        constructor
        · intro h x hx
          rcases List.mem_cons.mp hx with rfl | hx
          · exact Or.inr htry
          · exact h x hx
        · intro h x hx
          exact h x (List.mem_cons_of_mem s hx)
      | some body =>
        dsimp only
        rw [if_pos (by omega : len < ((textOfBody body).length : Int))]
        constructor
        · intro h
          exfalso
          have hs := dwpGo_isSome_of_best_some rest bits (textOfBody body)
            ((textOfBody body).length : Int)
          rw [h] at hs
          simp at hs
        · intro h
          exfalso
          rcases h s (List.mem_cons_self s rest) with hbad | hbad
          · exact h10 hbad
          · rw [htry] at hbad
            exact Option.noConfusion hbad

theorem dwpGo_some_src : ∀ (l bits : List Nat) (best : Option (List Nat)) (len : Int)
    (t : List Nat), dwpGo bits l best len = some t →
    best = some t ∨ ∃ s ∈ l, ∃ body,
      ¬ (bits_to_bytes_uart bits s 10000).1.length < 10 ∧
      try_bit_order_and_crc (bits_to_bytes_uart bits s 10000).1 = some body ∧
      t = textOfBody body := by
  intro l
  induction l with
  | nil =>
    intro bits best len t h
    simp only [dwpGo] at h
    exact Or.inl h
  | cons s rest ih =>
    intro bits best len t h
    simp only [dwpGo] at h
    by_cases h10 : (bits_to_bytes_uart bits s 10000).1.length < 10
    · rw [if_pos h10] at h
      rcases ih bits best len t h with hb | ⟨x, hx, body, hrest⟩
      · exact Or.inl hb
      · exact Or.inr ⟨x, List.mem_cons_of_mem s hx, body, hrest⟩
    · rw [if_neg h10] at h
      cases htry : try_bit_order_and_crc (bits_to_bytes_uart bits s 10000).1 with
      | none =>
        rw [htry] at h
        rcases ih bits best len t h with hb | ⟨x, hx, body, hrest⟩
        · exact Or.inl hb
        · exact Or.inr ⟨x, List.mem_cons_of_mem s hx, body, hrest⟩
      | some body =>
        rw [htry] at h
        dsimp only at h
        by_cases hlen : len < ((textOfBody body).length : Int)
        · rw [if_pos hlen] at h
          rcases ih bits (some (textOfBody body)) _ t h with hb | ⟨x, hx, body2, hrest⟩
          · refine Or.inr ⟨s, List.mem_cons_self s rest, body, h10, htry, ?_⟩
            exact (Option.some.inj hb).symm
          · exact Or.inr ⟨x, List.mem_cons_of_mem s hx, body2, hrest⟩
        · rw [if_neg hlen] at h
          rcases ih bits best len t h with hb | ⟨x, hx, body2, hrest⟩
          · exact Or.inl hb
          · exact Or.inr ⟨x, List.mem_cons_of_mem s hx, body2, hrest⟩

theorem decode_with_polarity_none_iff (raw_bits : List Nat) (flip : Bool) :
    decode_with_polarity raw_bits flip = none ↔ noValidatedCandidate raw_bits flip := by
  unfold decode_with_polarity noValidatedCandidate
  exact dwpGo_none_iff (applyPolarity raw_bits flip) (-1) (by norm_num)
    ((find_frames (applyPolarity raw_bits flip)).take 50)

/-- C4: the orchestrator fails with NoValidFrame exactly when neither polarity
hypothesis has any validated candidate among its considered frame starts; with
exactly one polarity producing a best text it returns that text, and with both
producing texts it returns the longer one, preferring the non-flipped
polarity's text when the lengths are equal. -/
theorem orchestrator_selection (raw_bits : List Nat) :
    (decodeFromBits raw_bits = .error .noValidFrame ↔
      noValidatedCandidate raw_bits false ∧ noValidatedCandidate raw_bits true) ∧
    (∀ t0, decode_with_polarity raw_bits false = some t0 →
      decode_with_polarity raw_bits true = none → decodeFromBits raw_bits = .ok t0) ∧
    (∀ t1, decode_with_polarity raw_bits false = none →
      decode_with_polarity raw_bits true = some t1 → decodeFromBits raw_bits = .ok t1) ∧
    (∀ t0 t1, decode_with_polarity raw_bits false = some t0 →
      decode_with_polarity raw_bits true = some t1 →
      decodeFromBits raw_bits = .ok (if t1.length ≤ t0.length then t0 else t1)) := by
  refine ⟨?_, ?_, ?_, ?_⟩
  · rw [← decode_with_polarity_none_iff raw_bits false,
      ← decode_with_polarity_none_iff raw_bits true]
    unfold decodeFromBits
    cases h0 : decode_with_polarity raw_bits false <;>
      cases h1 : decode_with_polarity raw_bits true <;>
        simp [h0, h1]
  · intro t0 h0 h1
    unfold decodeFromBits
    rw [h0, h1]
  · intro t1 h0 h1
    unfold decodeFromBits
    rw [h0, h1]
  · intro t0 t1 h0 h1
    unfold decodeFromBits
    rw [h0, h1]

set_option maxRecDepth 10000 in
/-- Witness for C4: on mixedBits both polarities validate texts of equal
length 8 and the orchestrator returns the non-flipped polarity's text. -/
theorem orchestrator_selection_witness : decodeFromBits mixedBits = .ok textA := by
  have h := (orchestrator_selection mixedBits).2.2.2 textA textB (by decide) (by decide)
  rw [if_pos (by decide)] at h
  exact h

theorem applyPolarity_false (raw_bits : List Nat) : applyPolarity raw_bits false = raw_bits := by
  simp [applyPolarity]

theorem applyPolarity_true (raw_bits : List Nat) :
    applyPolarity raw_bits true = raw_bits.map (fun b => 1 - b) := by
  simp [applyPolarity]

theorem applyPolarity_flip_flip (raw_bits : List Nat) (h01 : ∀ b ∈ raw_bits, b ≤ 1) :
    applyPolarity (raw_bits.map fun b => 1 - b) true = raw_bits := by
  rw [applyPolarity_true, List.map_map]
  have hcongr : ∀ b ∈ raw_bits, ((fun b => 1 - b) ∘ fun b : Nat => 1 - b) b = b := by
    intro b hb
    have := h01 b hb
    simp only [Function.comp_apply]
    omega
  rw [List.map_congr_left hcongr]
  simp

theorem dwp_flip_swap_false (raw_bits : List Nat) :
    decode_with_polarity (raw_bits.map fun b => 1 - b) false =
      decode_with_polarity raw_bits true := by
  unfold decode_with_polarity
  rw [applyPolarity_false (raw_bits.map fun b => 1 - b), applyPolarity_true raw_bits]

theorem dwp_flip_swap_true (raw_bits : List Nat) (h01 : ∀ b ∈ raw_bits, b ≤ 1) :
    decode_with_polarity (raw_bits.map fun b => 1 - b) true =
      decode_with_polarity raw_bits false := by
  unfold decode_with_polarity
  rw [applyPolarity_flip_flip raw_bits h01, applyPolarity_false raw_bits]

set_option maxRecDepth 10000 in
/-- C5 counterexample: mixedBits decodes successfully to textA, but flipping
every bit first makes the orchestrator return textB instead — the two
polarities validate distinct texts of equal length and the tie-break prefers
the non-flipped polarity, so the recovered text differs. -/
theorem polarity_invariance_counterexample :
    decodeFromBits mixedBits = .ok textA ∧
      decodeFromBits (mixedBits.map fun b => 1 - b) = .ok textB ∧
      textA ≠ textB := by
  refine ⟨by rfl, by rfl, by decide⟩

/-- C5 (amended): flipping every bit of a classified bit sequence before
decoding recovers the identical text, except when the two polarity hypotheses
both validate and their best texts have equal length but different content; in
that tie the non-flipped polarity is preferred, so flipping the input swaps
which of the two texts is returned. -/
theorem polarity_invariance_amended (raw_bits : List Nat) (h01 : ∀ b ∈ raw_bits, b ≤ 1)
    (t : List Nat) (hok : decodeFromBits raw_bits = .ok t)
    (hnotie : ¬ ∃ t0 t1, decode_with_polarity raw_bits false = some t0 ∧
        decode_with_polarity raw_bits true = some t1 ∧
        t0.length = t1.length ∧ t0 ≠ t1) :
    decodeFromBits (raw_bits.map fun b => 1 - b) = .ok t := by
  unfold decodeFromBits at hok ⊢
  rw [dwp_flip_swap_false raw_bits, dwp_flip_swap_true raw_bits h01]
  cases h0 : decode_with_polarity raw_bits false with
  | none =>
    cases h1 : decode_with_polarity raw_bits true with
    | none =>
      rw [h0, h1] at hok
      exact absurd hok (by simp)
    | some t1 =>
      rw [h0, h1] at hok
      simp only [Except.ok.injEq] at hok
      simp [hok]
  | some t0 =>
    cases h1 : decode_with_polarity raw_bits true with
    | none =>
      rw [h0, h1] at hok
      simp only [Except.ok.injEq] at hok
      simp [hok]
    | some t1 =>
      rw [h0, h1] at hok
      simp only [Except.ok.injEq] at hok
      dsimp only
      simp only [Except.ok.injEq]
      rcases Nat.lt_trichotomy t0.length t1.length with hlt | heq | hgt
      · rw [if_neg (by omega)] at hok
        rw [if_pos (by omega)]
        exact hok
      · have heqt : t0 = t1 := by
          by_contra hne
          exact hnotie ⟨t0, t1, h0, h1, heq, hne⟩
        subst heqt
        rw [if_pos (by omega)] at hok
        rw [if_pos (by omega)]
        exact hok
      · rw [if_pos (by omega)] at hok
        rw [if_neg (by omega)]
        exact hok

set_option maxRecDepth 10000 in
/-- Witness for the amended C5: frameA decodes identically with and without a
global bit flip, since only one polarity validates. -/
theorem polarity_invariance_amended_witness :
    decodeFromBits (frameA.map fun b => 1 - b) = .ok textA := by
  refine polarity_invariance_amended frameA (by decide) textA (by rfl) ?_
  rintro ⟨t0, t1, h0, h1, hlen, hne⟩
  have hnone : decode_with_polarity frameA true = none := by decide
  rw [hnone] at h1
  exact Option.noConfusion h1

theorem checkCand_some_length (cand b : List Nat) (h : checkCand cand = some b) :
    b.length + 2 = cand.length := by
  unfold checkCand at h
  by_cases h3 : cand.length < 3
  · rw [if_pos h3] at h
    exact absurd h (by simp)
  · rw [if_neg h3] at h
    dsimp only at h
    have hb : b = cand.take (cand.length - 2) := by
      by_cases hc1 : crc16_xmodem (cand.take (cand.length - 2)) 0x1021 0x0000 =
          (cand.drop (cand.length - 2)).getD 0 0 <<< 8 ||| (cand.drop (cand.length - 2)).getD 1 0
      · rw [if_pos hc1] at h
        exact (Option.some.inj h).symm
      · rw [if_neg hc1] at h
        by_cases hc2 : crc16_ccitt_false (cand.take (cand.length - 2)) =
            (cand.drop (cand.length - 2)).getD 0 0 <<< 8 ||| (cand.drop (cand.length - 2)).getD 1 0
        · rw [if_pos hc2] at h
          exact (Option.some.inj h).symm
        · rw [if_neg hc2] at h
          exact absurd h (by simp)
    rw [hb, List.length_take]
    omega

theorem try_some_length (payload body : List Nat)
    (h : try_bit_order_and_crc payload = some body) :
    body.length + 2 = payload.length := by
  unfold try_bit_order_and_crc at h
  by_cases h3 : payload.length < 3
  · rw [if_pos h3] at h
    exact absurd h (by simp)
  · rw [if_neg h3] at h
    cases hc : checkCand payload with
    | some b =>
      rw [hc] at h
      have hlen := checkCand_some_length payload b hc
      have hb : b = body := Option.some.inj h
      subst hb
      exact hlen
    | none =>
      rw [hc] at h
      have := checkCand_some_length (payload.map reverse_bits_in_byte) body h
      rw [List.length_map] at this
      exact this

theorem dwp_some_src (raw_bits : List Nat) (flip : Bool) (t : List Nat)
    (h : decode_with_polarity raw_bits flip = some t) :
    ∃ s ∈ (find_frames (applyPolarity raw_bits flip)).take 50, ∃ body,
      ¬ (bits_to_bytes_uart (applyPolarity raw_bits flip) s 10000).1.length < 10 ∧
      try_bit_order_and_crc (bits_to_bytes_uart (applyPolarity raw_bits flip) s 10000).1 =
        some body ∧
      t = textOfBody body := by
  unfold decode_with_polarity at h
  rcases dwpGo_some_src ((find_frames (applyPolarity raw_bits flip)).take 50)
      (applyPolarity raw_bits flip) none (-1) t h with hbest | hsrc
  · exact absurd hbest (by simp)
  · exact hsrc

/-- C9: every text the decoder returns originates from some polarity and some
considered frame-start candidate whose parsed payload passed the minimum
length filter of 10 bytes and then validated; the validated body is the
payload minus its 2-byte trailer, hence never shorter than 8 bytes. -/
theorem min_payload_filter (raw_bits t : List Nat)
    (hok : decodeFromBits raw_bits = .ok t) :
    ∃ flip, ∃ s ∈ (find_frames (applyPolarity raw_bits flip)).take 50, ∃ body,
      10 ≤ (bits_to_bytes_uart (applyPolarity raw_bits flip) s 10000).1.length ∧
      try_bit_order_and_crc (bits_to_bytes_uart (applyPolarity raw_bits flip) s 10000).1 =
        some body ∧
      body.length + 2 = (bits_to_bytes_uart (applyPolarity raw_bits flip) s 10000).1.length ∧
      8 ≤ body.length ∧
      t = textOfBody body := by
  have hcase : decode_with_polarity raw_bits false = some t ∨
      decode_with_polarity raw_bits true = some t := by
    unfold decodeFromBits at hok
    cases h0 : decode_with_polarity raw_bits false with
    | none =>
      cases h1 : decode_with_polarity raw_bits true with
      | none =>
        rw [h0, h1] at hok
        exact absurd hok (by simp)
      | some t1 =>
        rw [h0, h1] at hok
        simp only [Except.ok.injEq] at hok
        exact Or.inr (by rw [hok])
    | some t0 =>
      cases h1 : decode_with_polarity raw_bits true with
      | none =>
        rw [h0, h1] at hok
        simp only [Except.ok.injEq] at hok
        exact Or.inl (by rw [hok])
      | some t1 =>
        rw [h0, h1] at hok
        simp only [Except.ok.injEq] at hok
        by_cases hle : t1.length ≤ t0.length
        · rw [if_pos hle] at hok
          exact Or.inl (by rw [hok])
        · rw [if_neg hle] at hok
          exact Or.inr (by rw [hok])
  have hbuild : ∀ flip, decode_with_polarity raw_bits flip = some t →
      ∃ s ∈ (find_frames (applyPolarity raw_bits flip)).take 50, ∃ body,
        10 ≤ (bits_to_bytes_uart (applyPolarity raw_bits flip) s 10000).1.length ∧
        try_bit_order_and_crc (bits_to_bytes_uart (applyPolarity raw_bits flip) s 10000).1 =
          some body ∧
        body.length + 2 = (bits_to_bytes_uart (applyPolarity raw_bits flip) s 10000).1.length ∧
        8 ≤ body.length ∧
        t = textOfBody body := by
    intro flip hflip
    rcases dwp_some_src raw_bits flip t hflip with ⟨s, hs, body, h10, htry, htext⟩
    have hlen := try_some_length _ body htry
    exact ⟨s, hs, body, by omega, htry, hlen, by omega, htext⟩
  rcases hcase with h | h
  · exact ⟨false, hbuild false h⟩
  · exact ⟨true, hbuild true h⟩

set_option maxRecDepth 10000 in
/-- Witness for C9 at the concrete successful decode of frameA. -/
theorem min_payload_filter_witness :
    ∃ flip, ∃ s ∈ (find_frames (applyPolarity frameA flip)).take 50, ∃ body,
      10 ≤ (bits_to_bytes_uart (applyPolarity frameA flip) s 10000).1.length ∧
      try_bit_order_and_crc (bits_to_bytes_uart (applyPolarity frameA flip) s 10000).1 =
        some body ∧
      body.length + 2 = (bits_to_bytes_uart (applyPolarity frameA flip) s 10000).1.length ∧
      8 ≤ body.length ∧
      textA = textOfBody body :=
  min_payload_filter frameA textA (by rfl)

theorem decodeFromBits_ne_insufficient (raw_bits : List Nat) :
    decodeFromBits raw_bits ≠ .error .insufficientData := by
  unfold decodeFromBits
  cases h0 : decode_with_polarity raw_bits false <;>
    cases h1 : decode_with_polarity raw_bits true <;> simp

/-- C8: on a buffer with fewer than 6400 samples — fewer than 200 whole
32-sample blocks — decode_config_string fails with InsufficientData no matter
what the classifier stage would return; on a buffer with at least 6400 samples
this error is never raised. -/
theorem insufficient_data_guard (labeller : List (List Int) → List Nat) (pcm : List Int) :
    (pcm.length < 6400 → decode_config_string labeller pcm = .error .insufficientData) ∧
    (6400 ≤ pcm.length → decode_config_string labeller pcm ≠ .error .insufficientData) := by
  constructor
  · intro h
    unfold decode_config_string
    rw [if_pos (by omega)]
  · intro h
    unfold decode_config_string
    rw [if_neg (by omega)]
    exact decodeFromBits_ne_insufficient _

set_option maxRecDepth 10000 in
/-- Witness for C8 at buffers of 6399 and 6400 zero samples. -/
theorem insufficient_data_guard_witness :
    decode_config_string (fun _ => []) (List.replicate 6399 0) = .error .insufficientData ∧
      decode_config_string (fun _ => []) (List.replicate 6400 0) ≠ .error .insufficientData := by
  constructor
  · exact (insufficient_data_guard (fun _ => []) (List.replicate 6399 0)).1
      (by rw [List.length_replicate]; exact Nat.lt_of_sub_eq_succ rfl)
  · exact (insufficient_data_guard (fun _ => []) (List.replicate 6400 0)).2
      (by rw [List.length_replicate])

end Decoder
